import Mathlib

/-!
Verification of the con-espressione MIDI playback core (`midi_thread.py`,
`standalone.py`).

The Python floats are modelled as rationals.  The only float operation with
no exact rational counterpart is `2 ** x` for a real exponent; it is modelled
by an abstract parameter `exp2 : ℚ → ℚ`, and theorems assume of it only the
facts actually used (positivity, and `exp2 0 = 1` in concrete scenarios),
which hold for the real function `x ↦ 2 ^ x`.
-/

namespace ConEspressione

/-- Rounding of `np.round`: round half to even (banker's rounding). -/
def npRound (x : ℚ) : ℤ :=
  if x - ⌊x⌋ < 1 / 2 then ⌊x⌋
  else if 1 / 2 < x - ⌊x⌋ then ⌊x⌋ + 1
  else if Even ⌊x⌋ then ⌊x⌋ else ⌊x⌋ + 1

/-- Clipping of `np.clip` on the already-rounded integer velocities:
values below `lo` become `lo`, then values above `hi` become `hi`. -/
def npClip (x lo hi : ℤ) : ℤ := min hi (max lo x)

/-- Performed MIDI velocity of one note, from
`np.clip(np.round(vt * vel_a - vd), vel_min, vel_max).astype(int)`
in `BasisMixerMidiThread.run`. -/
def perfVelocity (vt vd vel : ℚ) (velMin velMax : ℤ) : ℤ :=
  npClip (npRound (vt * vel - vd)) velMin velMax

/-- One score position of the score-performance dictionary built by
`load_bm_preds`: the tuple
`(pitch, ioi, dur, vt, vd, lbpr, tim, lart, mel)` keyed by a score onset.
Scalars per position: `ioi`, `lbpr`; the remaining entries are per-note
parallel arrays. -/
structure ScorePos where
  key : ℚ
  pitch : List ℤ
  ioi : ℚ
  dur : List ℚ
  vt : List ℚ
  vd : List ℚ
  lbpr : ℚ
  tim : List ℚ
  lart : List ℚ
  mel : List ℚ
deriving DecidableEq, Inhabited

/-- Initial equivalent onset, `prev_eq_onset = 0.5` in
`BasisMixerMidiThread.run`. -/
def bmEqOnsetInit : ℚ := 1 / 2

/-- One update of the equivalent-onset accumulator:
`eq_onset = prev_eq_onset + (2 ** lbpr) * bpr_a * ioi`. -/
def eqOnsetNext (exp2 : ℚ → ℚ) (tempo prev : ℚ) (p : ScorePos) : ℚ :=
  prev + exp2 p.lbpr * tempo * p.ioi

/-- Successive values of `prev_eq_onset` along the iteration over score
positions: the seed followed by the accumulator value after each position. -/
def eqOnsetSeq (exp2 : ℚ → ℚ) (tempo : ℚ) : List ScorePos → ℚ → List ℚ
  | [], prev => [prev]
  | p :: ps, prev => prev :: eqOnsetSeq exp2 tempo ps (eqOnsetNext exp2 tempo prev p)

theorem eqOnsetSeq_getD_zero (exp2 : ℚ → ℚ) (tempo : ℚ) (ps : List ScorePos)
    (prev : ℚ) : (eqOnsetSeq exp2 tempo ps prev).getD 0 0 = prev := by
  cases ps <;> rfl

theorem eqOnsetSeq_head? (exp2 : ℚ → ℚ) (tempo : ℚ) (ps : List ScorePos)
    (prev : ℚ) : (eqOnsetSeq exp2 tempo ps prev).head? = some prev := by
  cases ps <;> rfl

theorem eqOnsetSeq_getD_succ (exp2 : ℚ → ℚ) (tempo : ℚ) :
    ∀ (ps : List ScorePos) (prev : ℚ) (n : ℕ), n < ps.length →
      (eqOnsetSeq exp2 tempo ps prev).getD (n + 1) 0
        = (eqOnsetSeq exp2 tempo ps prev).getD n 0
          + exp2 (ps.getD n default).lbpr * tempo * (ps.getD n default).ioi := by
  intro ps
  induction ps with
  | nil => intro prev n hn; simp at hn
  | cons p ps ih =>
    intro prev n hn
    cases n with
    | zero =>
      simp only [eqOnsetSeq, List.getD_cons_succ, List.getD_cons_zero]
      rw [eqOnsetSeq_getD_zero]
      rfl
    | succ m =>
      simp only [eqOnsetSeq, List.getD_cons_succ]
      exact ih (eqOnsetNext exp2 tempo prev p) m (by simpa using hn)

/-- C1: iterated in ascending key order, the running equivalent-onset
accumulator is seeded to `0.5` and satisfies
`eq_onset(n) = eq_onset(n-1) + 2^lbpr(n) * tempo * ioi(n)`. -/
theorem eq_onset_recurrence (exp2 : ℚ → ℚ) (tempo : ℚ) (ps : List ScorePos)
    (n : ℕ) (hn : n < ps.length) :
    (eqOnsetSeq exp2 tempo ps bmEqOnsetInit).getD 0 0 = 1 / 2
    ∧ (eqOnsetSeq exp2 tempo ps bmEqOnsetInit).getD (n + 1) 0
        = (eqOnsetSeq exp2 tempo ps bmEqOnsetInit).getD n 0
          + exp2 (ps.getD n default).lbpr * tempo * (ps.getD n default).ioi := by
  constructor
  · rw [eqOnsetSeq_getD_zero]; rfl
  · exact eqOnsetSeq_getD_succ exp2 tempo ps bmEqOnsetInit n hn

/-- Witness for C1, Scenario A: a single score position with `lbpr = 0`,
`ioi = 1`, `tempo = 1` yields `eq_onset = 0.5 + 1.0 = 1.5`. -/
theorem eq_onset_recurrence_witness :
    (eqOnsetSeq (fun _ => (1 : ℚ)) 1
        [⟨0, [60], 1, [1], [1], [0], 0, [0], [0], []⟩] bmEqOnsetInit).getD 1 0
      = 3 / 2 := by
  obtain ⟨h0, h1⟩ := eq_onset_recurrence (fun _ => (1 : ℚ)) 1
    [⟨0, [60], 1, [1], [1], [0], 0, [0], [0], []⟩] 0 (by norm_num)
  rw [h1, h0]
  norm_num

/-- C2: the performed velocity equals `clip(round(vt * velocity - vd),
vel_min, vel_max)` cast to an integer, and whenever `vel_min ≤ vel_max` the
result lies within `[vel_min, vel_max]`; out-of-range values are clamped,
never rejected. -/
theorem perf_velocity_clip_range (vt vd vel : ℚ) (velMin velMax : ℤ)
    (h : velMin ≤ velMax) :
    perfVelocity vt vd vel velMin velMax
      = npClip (npRound (vt * vel - vd)) velMin velMax
    ∧ velMin ≤ perfVelocity vt vd vel velMin velMax
    ∧ perfVelocity vt vd vel velMin velMax ≤ velMax := by
  refine ⟨rfl, ?_, ?_⟩
  · exact le_min h (le_max_left _ _)
  · exact min_le_left _ _

/-- Witness for C2, Scenarios B and C: with `vt = 1`, `vd = 0`,
`vel_min = 30`, `vel_max = 110`, velocity `64` yields `64` and velocity
`200` is clamped to `110`, both within `[30, 110]`. -/
theorem perf_velocity_clip_range_witness :
    (30 : ℤ) ≤ 110
    ∧ perfVelocity 1 0 64 30 110 = 64
    ∧ perfVelocity 1 0 200 30 110 = 110
    ∧ 30 ≤ perfVelocity 1 0 200 30 110
    ∧ perfVelocity 1 0 200 30 110 ≤ 110 := by
  have h := perf_velocity_clip_range 1 0 200 30 110 (by norm_num)
  refine ⟨by norm_num, ?_, ?_, h.2.1, h.2.2⟩
  · norm_num [perfVelocity, npRound, npClip]
  · norm_num [perfVelocity, npRound, npClip]

/-- C6: with positive tempo (and the non-negative inter-onset intervals that
ascending key order produces, `2^lbpr` being positive), the equivalent-onset
accumulator is non-decreasing from each position to the next. -/
theorem eq_onset_monotone (exp2 : ℚ → ℚ) (tempo : ℚ) (ps : List ScorePos)
    (prev : ℚ) (htempo : 0 < tempo) (hexp : ∀ x, 0 < exp2 x)
    (hioi : ∀ p ∈ ps, 0 ≤ p.ioi) :
    List.Chain' (· ≤ ·) (eqOnsetSeq exp2 tempo ps prev) := by
  induction ps generalizing prev with
  | nil => simp [eqOnsetSeq]
  | cons p ps ih =>
    have h0 : 0 ≤ exp2 p.lbpr * tempo * p.ioi :=
      mul_nonneg (mul_nonneg (le_of_lt (hexp p.lbpr)) (le_of_lt htempo))
        (hioi p (List.mem_cons_self p ps))
    have hstep : prev ≤ eqOnsetNext exp2 tempo prev p := by
      unfold eqOnsetNext; linarith
    have htail : List.Chain' (· ≤ ·)
        (eqOnsetSeq exp2 tempo ps (eqOnsetNext exp2 tempo prev p)) :=
      ih (eqOnsetNext exp2 tempo prev p) (fun q hq => hioi q (List.mem_cons_of_mem p hq))
    have hcons : eqOnsetSeq exp2 tempo (p :: ps) prev
        = prev :: eqOnsetSeq exp2 tempo ps (eqOnsetNext exp2 tempo prev p) := rfl
    rw [hcons]
    refine List.chain'_cons'.2 ⟨?_, htail⟩
    intro y hy
    rw [eqOnsetSeq_head?] at hy
    rw [Option.mem_some_iff] at hy
    subst hy
    exact hstep

/-- Witness for C6: a concrete two-position score with positive tempo gives a
non-decreasing accumulator sequence. -/
theorem eq_onset_monotone_witness :
    List.Chain' (· ≤ ·)
      (eqOnsetSeq (fun _ => (1 : ℚ)) 1
        [⟨0, [60], 1, [1], [1], [0], 0, [0], [0], []⟩,
         ⟨1, [62], 2, [1], [1], [0], 0, [0], [0], []⟩] bmEqOnsetInit) :=
  eq_onset_monotone (fun _ => (1 : ℚ)) 1 _ bmEqOnsetInit (by norm_num)
    (fun _ => by norm_num)
    (by intro p hp
        simp only [List.mem_cons, List.mem_singleton] at hp
        rcases hp with h | h | h <;> first | (subst h; norm_num) | exact absurd h (by simp))

/-- Stable insertion of `a` behind every element whose key is not greater,
the building block of the stable sorts below. -/
def insertByKey {α : Type} (key : α → ℚ) (a : α) : List α → List α
  | [] => [a]
  | b :: l => if key b ≤ key a then b :: insertByKey key a l else a :: b :: l

/-- Stable sort by a rational key, modelling Python's stable `list.sort`
(the note-off queue re-sort) and the ascending iteration over the unique
score-position keys. -/
def sortByKey {α : Type} (key : α → ℚ) (xs : List α) : List α :=
  xs.foldl (fun acc a => insertByKey key a acc) []

theorem mem_insertByKey {α : Type} (key : α → ℚ) (a b : α) :
    ∀ l : List α, b ∈ insertByKey key a l ↔ b = a ∨ b ∈ l := by
  intro l
  induction l with
  | nil => simp [insertByKey]
  | cons c l ih =>
    by_cases h : key c ≤ key a
    · simp only [insertByKey, if_pos h, List.mem_cons, ih]
      tauto
    · simp only [insertByKey, if_neg h, List.mem_cons]

theorem insertByKey_perm {α : Type} (key : α → ℚ) (a : α) :
    ∀ l : List α, (insertByKey key a l).Perm (a :: l) := by
  intro l
  induction l with
  | nil => simp [insertByKey]
  | cons c l ih =>
    by_cases h : key c ≤ key a
    · rw [insertByKey, if_pos h]
      exact (ih.cons c).trans (List.Perm.swap a c l)
    · rw [insertByKey, if_neg h]

theorem sortByKey_perm_aux {α : Type} (key : α → ℚ) :
    ∀ (l acc : List α),
      (l.foldl (fun acc a => insertByKey key a acc) acc).Perm (l ++ acc) := by
  intro l
  induction l with
  | nil => intro acc; simp
  | cons a l ih =>
    intro acc
    have h1 := ih (insertByKey key a acc)
    have h2 : (l ++ insertByKey key a acc).Perm (l ++ a :: acc) :=
      List.Perm.append_left l (insertByKey_perm key a acc)
    have h3 : (l ++ a :: acc).Perm (a :: (l ++ acc)) := List.perm_middle
    have h4 : (a :: (l ++ acc)).Perm (a :: l ++ acc) := by simp
    exact ((h1.trans h2).trans h3).trans h4

/-- Sorting by key permutes the list: used to move membership facts across
the re-sorts of the note-off queue. -/
theorem sortByKey_perm {α : Type} (key : α → ℚ) (xs : List α) :
    (sortByKey key xs).Perm xs := by
  simpa using sortByKey_perm_aux key xs []

theorem mem_sortByKey {α : Type} (key : α → ℚ) (xs : List α) (a : α) :
    a ∈ sortByKey key xs ↔ a ∈ xs :=
  (sortByKey_perm key xs).mem_iff

/-- Indices of `np.argsort(xs)`, modelled as a stable insertion argsort:
this reproduces NumPy only in its insertion-sort regime (arrays below the
16-element introsort cutoff).  NumPy's default `kind='quicksort'` is
documented as not stable, so for longer arrays it produces the same
ascending value order but an unspecified, generally different order among
tied values, which this model does not reproduce. -/
def argsort (xs : List ℚ) : List ℕ :=
  sortByKey (fun k => xs.getD k 0) (List.range xs.length)

/-- Fancy indexing `arr[idx]` of NumPy, total via a default element. -/
def permuteD {α : Type} [Inhabited α] (xs : List α) (idx : List ℕ) : List α :=
  idx.map (fun i => xs.getD i default)

/-- Per-note performed onsets at one position, `perf_onset = eq_onset - tim`. -/
def perfOnsets (eq : ℚ) (p : ScorePos) : List ℚ :=
  p.tim.map (fun t => eq - t)

/-- Index order of the notes at a position, `np.argsort(perf_onset)`. -/
def perfOnsetIdx (eq : ℚ) (p : ScorePos) : List ℕ :=
  argsort (perfOnsets eq p)

/-- Performed onsets reordered ascending, `perf_onset[perf_onset_idx]`. -/
def sortedPerfOnsets (eq : ℚ) (p : ScorePos) : List ℚ :=
  permuteD (perfOnsets eq p) (perfOnsetIdx eq p)

/-- Pitches reordered by the onset order, `pitch[perf_onset_idx]`. -/
def sortedPitches (eq : ℚ) (p : ScorePos) : List ℤ :=
  permuteD p.pitch (perfOnsetIdx eq p)

/-- Per-note performed durations, `(2 ** lart) * bpr_a * dur`. -/
def perfDurations (exp2 : ℚ → ℚ) (tempo : ℚ) (p : ScorePos) : List ℚ :=
  List.zipWith (fun la du => exp2 la * tempo * du) p.lart p.dur

/-- Performed durations reordered by the onset order. -/
def sortedPerfDurations (exp2 : ℚ → ℚ) (tempo eq : ℚ) (p : ScorePos) : List ℚ :=
  permuteD (perfDurations exp2 tempo p) (perfOnsetIdx eq p)

/-- Per-note performed velocities at one position. -/
def perfVels (vel : ℚ) (velMin velMax : ℤ) (p : ScorePos) : List ℤ :=
  List.zipWith (fun vt vd => perfVelocity vt vd vel velMin velMax) p.vt p.vd

/-- Performed velocities reordered by the onset order. -/
def sortedPerfVels (vel : ℚ) (velMin velMax : ℤ) (eq : ℚ) (p : ScorePos) :
    List ℤ :=
  permuteD (perfVels vel velMin velMax p) (perfOnsetIdx eq p)

/-- MIDI message kind as tested by `msg.type` in `MidiThread.run`. -/
inductive MsgType where
  | noteOn
  | noteOff
  | other
deriving DecidableEq, Inhabited

/-- One literal event of the replayed MIDI file: kind, note, velocity, and
the delta-time attribute used for the sleep before sending. -/
structure LitMsg where
  mtype : MsgType
  note : ℤ
  velocity : ℤ
  time : ℚ
deriving DecidableEq, Inhabited

/-- Message actually sent for one literal event, from `MidiThread.run`:
a `note_on` with nonzero velocity is replaced by a copy carrying the
override velocity when one is set; everything else passes through. -/
def litPlayMsg (ov : Option ℤ) (m : LitMsg) : LitMsg :=
  match ov with
  | none => m
  | some v =>
    if m.mtype = MsgType.noteOn ∧ m.velocity ≠ 0 then { m with velocity := v }
    else m

/-- Literal playback of `MidiThread.run`.  The thread reads `self.vel` and
`self.tempo` again on every loop iteration, so the run is parametrised by the
value each attribute holds when event number `i` is processed; the result
pairs each sent message with the duration of the sleep before it
(`play_msg.time * self.tempo`). -/
def litRun (velAt : ℕ → Option ℤ) (tempoAt : ℕ → ℚ) :
    ℕ → List LitMsg → List (LitMsg × ℚ)
  | _, [] => []
  | i, m :: ms =>
    let pm := litPlayMsg (velAt i) m
    (pm, pm.time * tempoAt i) :: litRun velAt tempoAt (i + 1) ms

/-- C7: in literal playback, a note-on with nonzero original velocity is sent
with the configured override velocity; note-offs and zero-velocity note-ons
pass through unmodified; and each step of the replay sends exactly the
so-transformed message after a sleep of `time * tempo`. -/
theorem literal_velocity_override :
    (∀ (v : ℤ) (m : LitMsg), m.mtype = MsgType.noteOn → m.velocity ≠ 0 →
        litPlayMsg (some v) m = { m with velocity := v })
    ∧ (∀ (ov : Option ℤ) (m : LitMsg), m.mtype = MsgType.noteOff →
        litPlayMsg ov m = m)
    ∧ (∀ (ov : Option ℤ) (m : LitMsg), m.velocity = 0 → litPlayMsg ov m = m)
    ∧ (∀ (velAt : ℕ → Option ℤ) (tempoAt : ℕ → ℚ) (i : ℕ) (m : LitMsg)
        (ms : List LitMsg),
        litRun velAt tempoAt i (m :: ms)
          = (litPlayMsg (velAt i) m, (litPlayMsg (velAt i) m).time * tempoAt i)
              :: litRun velAt tempoAt (i + 1) ms) := by
  refine ⟨?_, ?_, ?_, fun _ _ _ _ _ => rfl⟩
  · intro v m h1 h2
    simp [litPlayMsg, h1, h2]
  · intro ov m h
    cases ov with
    | none => rfl
    | some v => simp [litPlayMsg, h]
  · intro ov m h
    cases ov with
    | none => rfl
    | some v => simp [litPlayMsg, h]

/-- Witness for C7: a note-on of velocity 64 with override 80 is sent with
velocity 80; a note-off passes through unmodified. -/
theorem literal_velocity_override_witness :
    litPlayMsg (some 80) ⟨MsgType.noteOn, 60, 64, 1⟩ = ⟨MsgType.noteOn, 60, 80, 1⟩
    ∧ litPlayMsg (some 80) ⟨MsgType.noteOff, 60, 64, 1⟩ = ⟨MsgType.noteOff, 60, 64, 1⟩ := by
  constructor
  · exact literal_velocity_override.1 80 ⟨MsgType.noteOn, 60, 64, 1⟩ rfl (by norm_num)
  · exact literal_velocity_override.2.1 (some 80) ⟨MsgType.noteOff, 60, 64, 1⟩ rfl

/-- Counterexample to C8: two literal runs over the same two note-on events
start with the same override velocity (50), but in the second run a setter
call before event 1 changes the override to 30, and the sent events differ.
The override is therefore re-read during playback, not read once at thread
start. -/
theorem literal_override_read_once_cex :
    (fun i => if i = 0 then (some 50 : Option ℤ) else some 30) 0
        = (fun _ => (some 50 : Option ℤ)) 0
    ∧ litRun (fun _ => some 50) (fun _ => 1) 0
          [⟨MsgType.noteOn, 60, 64, 1⟩, ⟨MsgType.noteOn, 62, 64, 1⟩]
        ≠ litRun (fun i => if i = 0 then some 50 else some 30) (fun _ => 1) 0
          [⟨MsgType.noteOn, 60, 64, 1⟩, ⟨MsgType.noteOn, 62, 64, 1⟩] := by
  refine ⟨rfl, ?_⟩
  simp [litRun, litPlayMsg]

/-- C8 as amended: `MidiThread.run` re-reads the velocity override and the
tempo stretch on every event; when no setter call changes them after playback
starts (constant attribute history), the run coincides with the
snapshot-at-start behaviour, event by event. -/
theorem literal_override_reread (v0 : Option ℤ) (t0 : ℚ) :
    ∀ (i : ℕ) (msgs : List LitMsg),
      litRun (fun _ => v0) (fun _ => t0) i msgs
        = msgs.map (fun m => (litPlayMsg v0 m, (litPlayMsg v0 m).time * t0)) := by
  intro i msgs
  induction msgs generalizing i with
  | nil => rfl
  | cons m ms ih => simp [litRun, ih]

/-- Affine map of `LeapControl.set_velocity`: a raw controller value in
`[0, 127]` is scaled into `[0.5, 2.0]` (the code's own comment) before being
handed to the playback thread's velocity setter. -/
def leapVelocityMap (val : ℚ) : ℚ :=
  if val ≤ 64 then 1 / 2 / 64 * val + 1 / 2 else 2 / 127 * val

/-- Counterexample to C9: the raw controller velocity 1 is mapped to
`65 / 128`, which is not an integer MIDI velocity level at all — the map
lands in the tempo-style multiplier range `[0.5, 2.0]`, not the MIDI
velocity range. -/
theorem leap_velocity_map_cex :
    ((0 : ℚ) ≤ 1 ∧ (1 : ℚ) ≤ 127)
    ∧ ¬ ∃ n : ℤ, (n : ℚ) = leapVelocityMap 1 ∧ 0 ≤ n ∧ n ≤ 127 := by
  refine ⟨⟨by norm_num, by norm_num⟩, ?_⟩
  rintro ⟨n, hn, -, -⟩
  have hv : leapVelocityMap 1 = 65 / 128 := by norm_num [leapVelocityMap]
  rw [hv] at hn
  have h128 : (128 : ℚ) * n = 65 := by rw [hn]; norm_num
  have hz : (128 : ℤ) * n = 65 := by exact_mod_cast h128
  omega

/-- C9 as amended: for every raw controller value in `[0, 127]`,
`LeapControl.set_velocity` maps it into the multiplier interval
`[0.5, 2.0]` (the same range as the tempo mapping), which is what is passed
to the playback thread's velocity setter. -/
theorem leap_velocity_map_range (val : ℚ) (h0 : 0 ≤ val) (h127 : val ≤ 127) :
    1 / 2 ≤ leapVelocityMap val ∧ leapVelocityMap val ≤ 2 := by
  unfold leapVelocityMap
  by_cases h : val ≤ 64
  · rw [if_pos h]
    constructor <;> nlinarith
  · rw [if_neg h]
    push_neg at h
    constructor <;> nlinarith

/-- Witness for the amended C9: raw value 100 lands in `[0.5, 2.0]`. -/
theorem leap_velocity_map_range_witness :
    1 / 2 ≤ leapVelocityMap 100 ∧ leapVelocityMap 100 ≤ 2 :=
  leap_velocity_map_range 100 (by norm_num) (by norm_num)

/-- Controller state of `LeapControl`: the song list and the current song
selection, generic in whatever the song list stores (file paths). -/
structure LeapState (α : Type) where
  songList : List α
  curSongId : ℤ
  curSong : α
deriving DecidableEq

/-- Indexing `xs[i]` of a Python list: negative indices address from the
end, and an index below `-len(xs)` raises `IndexError` (`none`). -/
def pyIndex {α : Type} (xs : List α) (i : ℤ) : Option α :=
  if 0 ≤ i then xs[i.toNat]?
  else if 0 ≤ i + xs.length then xs[(i + xs.length).toNat]? else none

/-- Model of `LeapControl.select_song`, including the partial mutation the
Python code performs when `song_list[val]` raises: `cur_song_id` is assigned
before the indexing, so an `IndexError` (the `Except.error` case) escapes
with the id already overwritten and the current song unchanged. -/
def select_song {α : Type} (s : LeapState α) (val : ℤ) :
    Except (LeapState α) (LeapState α) :=
  if val < s.songList.length then
    match pyIndex s.songList val with
    | some song => Except.ok ⟨s.songList, val, song⟩
    | none => Except.error ⟨s.songList, val, s.curSong⟩
  else Except.ok s

/-- Counterexample to C10 at `val = -3 < 2 = len(song_list)`: the call does
not set the current song to any list entry — Python raises `IndexError`
(after already overwriting the song id), because `-3` is below `-len`. -/
theorem select_song_cex :
    (-3 : ℤ) < (([10, 20] : List ℕ)).length
    ∧ select_song (⟨[10, 20], 0, 10⟩ : LeapState ℕ) (-3)
        = Except.error ⟨[10, 20], -3, 10⟩ := by
  constructor
  · norm_num
  · rfl

/-- C10 as amended: `select_song(val)` leaves the state unchanged when
`val ≥ len(song_list)`; for `0 ≤ val < len` it selects entry `val`; for
`-len ≤ val < 0` Python's negative indexing selects entry `len + val`; and
for `val < -len` an `IndexError` escapes with `cur_song_id` already
overwritten and the current song unchanged. -/
theorem select_song_behavior {α : Type} (s : LeapState α) (val : ℤ) :
    ((s.songList.length : ℤ) ≤ val → select_song s val = Except.ok s)
    ∧ (0 ≤ val → val < s.songList.length →
        ∃ song, s.songList[val.toNat]? = some song
          ∧ select_song s val = Except.ok ⟨s.songList, val, song⟩)
    ∧ (-(s.songList.length : ℤ) ≤ val → val < 0 →
        ∃ song, s.songList[(val + s.songList.length).toNat]? = some song
          ∧ select_song s val = Except.ok ⟨s.songList, val, song⟩)
    ∧ (val < -(s.songList.length : ℤ) →
        select_song s val = Except.error ⟨s.songList, val, s.curSong⟩) := by
  refine ⟨?_, ?_, ?_, ?_⟩
  · intro h
    rw [select_song, if_neg (by omega)]
  · intro h0 hlen
    have hnat : val.toNat < s.songList.length := by omega
    obtain ⟨song, hsong⟩ : ∃ song, s.songList[val.toNat]? = some song :=
      ⟨s.songList[val.toNat], List.getElem?_eq_getElem hnat⟩
    refine ⟨song, hsong, ?_⟩
    rw [select_song, if_pos (by omega), pyIndex, if_pos h0, hsong]
  · intro hneg hlt
    have hnat : (val + s.songList.length).toNat < s.songList.length := by omega
    obtain ⟨song, hsong⟩ :
        ∃ song, s.songList[(val + s.songList.length).toNat]? = some song :=
      ⟨s.songList[(val + s.songList.length).toNat], List.getElem?_eq_getElem hnat⟩
    refine ⟨song, hsong, ?_⟩
    rw [select_song, if_pos (by omega), pyIndex, if_neg (by omega),
      if_pos (by omega), hsong]
  · intro h
    have hlen : (0 : ℤ) ≤ s.songList.length := by positivity
    rw [select_song, if_pos (by omega), pyIndex, if_neg (by omega),
      if_neg (by omega)]

/-- Witness for the amended C10: on the two-song list, `val = 5` leaves the
state unchanged and `val = 1` selects the second song. -/
theorem select_song_behavior_witness :
    select_song (⟨[10, 20], 0, 10⟩ : LeapState ℕ) 5 = Except.ok ⟨[10, 20], 0, 10⟩
    ∧ select_song (⟨[10, 20], 0, 10⟩ : LeapState ℕ) 1 = Except.ok ⟨[10, 20], 1, 20⟩ := by
  constructor
  · exact (select_song_behavior (⟨[10, 20], 0, 10⟩ : LeapState ℕ) 5).1 (by norm_num)
  · obtain ⟨song, hsong, hsel⟩ :=
      (select_song_behavior (⟨[10, 20], 0, 10⟩ : LeapState ℕ) 1).2.1
        (by norm_num) (by norm_num)
    have : song = 20 := by
      simp only [show ((1 : ℤ)).toNat = 1 from rfl] at hsong
      simpa using hsong.symm
    rw [hsel, this]

/-- One scheduled MIDI message of `BasisMixerMidiThread.run`; `time` is the
scheduled time since the beginning of the piece carried in the message's
time attribute. -/
structure MidiMsg where
  isOn : Bool
  note : ℤ
  vel : ℤ
  time : ℚ
deriving DecidableEq, Inhabited

/-- Note-on/note-off message pairs built by the
`for p, o, d, v in zip(pitch, perf_onset, perf_duration, perf_vel)` loop:
the note-on at time `o` and the note-off at time `o + d`, truncating to the
shortest array exactly as `zip` does. -/
def mkNoteMsgs : List ℤ → List ℚ → List ℚ → List ℤ → List (MidiMsg × MidiMsg)
  | p :: ps, o :: os, d :: ds, v :: vs =>
    (⟨true, p, v, o⟩, ⟨false, p, v, o + d⟩) :: mkNoteMsgs ps os ds vs
  | _, _, _, _ => []

/-- Result of the per-position dispatch loop: messages sent from each queue,
queue remainders, remaining clock readings, and whether the loop ran to
completion (`ok = false` only when the modelled clock trace ran out). -/
structure LoopOut where
  sentOn : List MidiMsg
  sentOff : List MidiMsg
  onRem : List MidiMsg
  offRem : List MidiMsg
  clockRem : List ℚ
  ok : Bool
deriving DecidableEq

/-- Dispatch loop of one score position (`while len(on_messages) > 0`): per
iteration, send the note-on queue head if due at the first clock reading,
then, if the note-off queue is non-empty, send its head if due at a second
clock reading.  The clock trace is the sequence of `time.time() - init_time`
values the loop observes. -/
def streamLoop : List ℚ → List MidiMsg → List MidiMsg → LoopOut
  | clk, [], offQ => ⟨[], [], [], offQ, clk, true⟩
  | [], onM :: onR, offQ => ⟨[], [], onM :: onR, offQ, [], false⟩
  | t1 :: clk, onM :: onR, [] =>
    let r := streamLoop clk (if onM.time ≤ t1 then onR else onM :: onR) []
    ⟨(if onM.time ≤ t1 then [onM] else []) ++ r.sentOn, r.sentOff, r.onRem,
      r.offRem, r.clockRem, r.ok⟩
  | [t1], onM :: onR, om :: offR =>
    ⟨if onM.time ≤ t1 then [onM] else [], [],
      if onM.time ≤ t1 then onR else onM :: onR, om :: offR, [], false⟩
  | t1 :: t2 :: clk, onM :: onR, om :: offR =>
    let r := streamLoop clk (if onM.time ≤ t1 then onR else onM :: onR)
      (if om.time ≤ t2 then offR else om :: offR)
    ⟨(if onM.time ≤ t1 then [onM] else []) ++ r.sentOn,
      (if om.time ≤ t2 then [om] else []) ++ r.sentOff, r.onRem, r.offRem,
      r.clockRem, r.ok⟩

/-- Result of the final drain loop over the note-off queue. -/
structure DrainOut where
  sent : List MidiMsg
  rem : List MidiMsg
  clockRem : List ℚ
  ok : Bool
deriving DecidableEq

/-- Final `while len(off_messages) > 0` loop: keep sending the head of the
note-off queue once due; the loop exits only when the queue is empty
(`ok = false` marks a clock trace too short to get there). -/
def drainLoop : List ℚ → List MidiMsg → DrainOut
  | clk, [] => ⟨[], [], clk, true⟩
  | [], m :: q => ⟨[], m :: q, [], false⟩
  | t :: clk, m :: q =>
    if m.time ≤ t then
      let r := drainLoop clk q
      ⟨m :: r.sent, r.rem, r.clockRem, r.ok⟩
    else
      let r := drainLoop clk (m :: q)
      ⟨r.sent, r.rem, r.clockRem, r.ok⟩

theorem drainLoop_conserve : ∀ (clk : List ℚ) (q : List MidiMsg),
    (drainLoop clk q).sent ++ (drainLoop clk q).rem = q
    ∧ ((drainLoop clk q).ok = true → (drainLoop clk q).rem = []) := by
  intro clk
  induction clk with
  | nil =>
    intro q
    cases q with
    | nil => simp [drainLoop]
    | cons m q => simp [drainLoop]
  | cons t clk ih =>
    intro q
    cases q with
    | nil => simp [drainLoop]
    | cons m q =>
      by_cases h : m.time ≤ t
      · have := ih q
        simp [drainLoop, h]
        exact ⟨this.1, this.2⟩
      · have := ih (m :: q)
        simp [drainLoop, h]
        exact ⟨this.1, this.2⟩

theorem streamLoop_conserve : ∀ (clk : List ℚ) (onQ offQ : List MidiMsg),
    (streamLoop clk onQ offQ).sentOn ++ (streamLoop clk onQ offQ).onRem = onQ
    ∧ (streamLoop clk onQ offQ).sentOff ++ (streamLoop clk onQ offQ).offRem
        = offQ := by
  intro clk onQ offQ
  induction clk, onQ, offQ using streamLoop.induct with
  | case1 clk offQ => simp [streamLoop]
  | case2 onM onR offQ => simp [streamLoop]
  | case3 t1 clk onM onR ih =>
    rw [streamLoop]
    by_cases h : onM.time ≤ t1
    · simp only [if_pos h] at ih ⊢
      simp_all
    · simp only [if_neg h] at ih ⊢
      simp_all
  | case4 t1 onM onR om offR =>
    rw [streamLoop]
    by_cases h : onM.time ≤ t1
    · simp only [if_pos h]
      simp
    · simp only [if_neg h]
      simp
  | case5 t1 t2 clk onM onR om offR ih =>
    rw [streamLoop]
    by_cases h1 : onM.time ≤ t1 <;> by_cases h2 : om.time ≤ t2
    · simp only [if_pos h1, if_pos h2] at ih ⊢
      simp_all
    · simp only [if_pos h1, if_neg h2] at ih ⊢
      simp_all
    · simp only [if_neg h1, if_pos h2] at ih ⊢
      simp_all
    · simp only [if_neg h1, if_neg h2] at ih ⊢
      simp_all

/-- Correspondence between a note-on and its note-off: same note and
velocity, scheduled at a later-or-equal time. -/
def offMatch (m m' : MidiMsg) : Prop :=
  m'.isOn = false ∧ m'.note = m.note ∧ m'.vel = m.vel ∧ m.time ≤ m'.time

theorem mkNoteMsgs_spec :
    ∀ (ps : List ℤ) (os ds : List ℚ) (vs : List ℤ), (∀ d ∈ ds, 0 ≤ d) →
      ∀ pr ∈ mkNoteMsgs ps os ds vs, pr.1.isOn = true ∧ offMatch pr.1 pr.2 := by
  intro ps
  induction ps with
  | nil => intro os ds vs _ pr hpr; simp [mkNoteMsgs] at hpr
  | cons p ps ih =>
    intro os ds vs hds pr hpr
    cases os with
    | nil => simp [mkNoteMsgs] at hpr
    | cons o os =>
      cases ds with
      | nil => simp [mkNoteMsgs] at hpr
      | cons d ds =>
        cases vs with
        | nil => simp [mkNoteMsgs] at hpr
        | cons v vs =>
          rw [mkNoteMsgs] at hpr
          rcases List.mem_cons.1 hpr with rfl | hpr
          · have hd : (0 : ℚ) ≤ d := hds d (List.mem_cons_self d ds)
            exact ⟨rfl, rfl, rfl, rfl, by show (o : ℚ) ≤ o + d; linarith⟩
          · exact ih os ds vs (fun x hx => hds x (List.mem_cons_of_mem d hx)) pr hpr

theorem mem_zipWith_imp {α β γ : Type} (f : α → β → γ) :
    ∀ (l1 : List α) (l2 : List β) (c : γ), c ∈ List.zipWith f l1 l2 →
      ∃ a ∈ l1, ∃ b ∈ l2, c = f a b := by
  intro l1
  induction l1 with
  | nil => intro l2 c hc; simp at hc
  | cons a l1 ih =>
    intro l2 c hc
    cases l2 with
    | nil => simp at hc
    | cons b l2 =>
      rw [List.zipWith_cons_cons] at hc
      rcases List.mem_cons.1 hc with rfl | hc
      · exact ⟨a, List.mem_cons_self a l1, b, List.mem_cons_self b l2, rfl⟩
      · obtain ⟨a', ha, b', hb, rfl⟩ := ih l2 c hc
        exact ⟨a', List.mem_cons_of_mem a ha, b', List.mem_cons_of_mem b hb, rfl⟩

theorem getD_mem_or {α : Type} : ∀ (xs : List α) (i : ℕ) (d : α),
    xs.getD i d ∈ xs ∨ xs.getD i d = d := by
  intro xs
  induction xs with
  | nil => intro i d; right; cases i <;> rfl
  | cons a xs ih =>
    intro i d
    cases i with
    | zero => left; simp
    | succ n =>
      rw [List.getD_cons_succ]
      rcases ih n d with h | h
      · exact Or.inl (List.mem_cons_of_mem a h)
      · exact Or.inr h

theorem perfDurations_nonneg (exp2 : ℚ → ℚ) (tempo : ℚ) (p : ScorePos)
    (ht : 0 ≤ tempo) (he : ∀ x, 0 ≤ exp2 x) (hd : ∀ d ∈ p.dur, 0 ≤ d) :
    ∀ x ∈ perfDurations exp2 tempo p, 0 ≤ x := by
  intro x hx
  obtain ⟨la, _, du, hdu, rfl⟩ := mem_zipWith_imp _ _ _ _ hx
  exact mul_nonneg (mul_nonneg (he la) ht) (hd du hdu)

theorem sortedPerfDurations_nonneg (exp2 : ℚ → ℚ) (tempo eq : ℚ)
    (p : ScorePos) (ht : 0 ≤ tempo) (he : ∀ x, 0 ≤ exp2 x)
    (hd : ∀ d ∈ p.dur, 0 ≤ d) :
    ∀ x ∈ sortedPerfDurations exp2 tempo eq p, 0 ≤ x := by
  intro x hx
  unfold sortedPerfDurations permuteD at hx
  obtain ⟨i, _, rfl⟩ := List.mem_map.1 hx
  rcases getD_mem_or (perfDurations exp2 tempo p) i default with h | h
  · exact perfDurations_nonneg exp2 tempo p ht he hd _ h
  · rw [h]; rfl

/-- State threaded through the playback run of `BasisMixerMidiThread.run`:
the accumulator `prev_eq_onset`, the persistent `off_messages` queue, the
messages sent so far from each queue, the remaining clock trace, and the
completion flag of the modelled loops. -/
structure RunState where
  prevEq : ℚ
  offQ : List MidiMsg
  sentOn : List MidiMsg
  sentOff : List MidiMsg
  clk : List ℚ
  ok : Bool
deriving DecidableEq

/-- Note-on/note-off pairs created at one score position, in emission
order. -/
def posMsgPairs (exp2 : ℚ → ℚ) (tempo vel : ℚ) (velMin velMax : ℤ)
    (eq : ℚ) (p : ScorePos) : List (MidiMsg × MidiMsg) :=
  mkNoteMsgs (sortedPitches eq p) (sortedPerfOnsets eq p)
    (sortedPerfDurations exp2 tempo eq p)
    (sortedPerfVels vel velMin velMax eq p)

/-- One iteration of the `for on in unique_onsets` loop: update the
accumulator, build the messages of the position, append the new note-offs to
the queue and re-sort it by time, then run the per-position dispatch loop. -/
def posStep (exp2 : ℚ → ℚ) (tempo vel : ℚ) (velMin velMax : ℤ)
    (st : RunState) (p : ScorePos) : RunState :=
  let eq := eqOnsetNext exp2 tempo st.prevEq p
  let pairs := posMsgPairs exp2 tempo vel velMin velMax eq p
  let r := streamLoop st.clk (pairs.map Prod.fst)
    (sortByKey MidiMsg.time (st.offQ ++ pairs.map Prod.snd))
  ⟨eq, r.offRem, st.sentOn ++ r.sentOn, st.sentOff ++ r.sentOff, r.clockRem,
    st.ok && r.ok⟩

/-- State before the first score position. -/
def bmRunInit (clk : List ℚ) : RunState := ⟨bmEqOnsetInit, [], [], [], clk, true⟩

/-- State after all score positions, iterated in ascending key order. -/
def bmStreamed (exp2 : ℚ → ℚ) (tempo vel : ℚ) (velMin velMax : ℤ)
    (score : List ScorePos) (clk : List ℚ) : RunState :=
  (sortByKey ScorePos.key score).foldl (posStep exp2 tempo vel velMin velMax)
    (bmRunInit clk)

/-- The whole playback run: stream all positions, then drain the remaining
note-off queue. -/
def bmRun (exp2 : ℚ → ℚ) (tempo vel : ℚ) (velMin velMax : ℤ)
    (score : List ScorePos) (clk : List ℚ) : RunState :=
  let st := bmStreamed exp2 tempo vel velMin velMax score clk
  let d := drainLoop st.clk st.offQ
  ⟨st.prevEq, d.rem, st.sentOn, st.sentOff ++ d.sent, d.clockRem,
    st.ok && d.ok⟩

/-- Invariant of the streaming phase: every note-on sent so far has a
matching note-off already sent or still waiting in the note-off queue. -/
def RunInv (st : RunState) : Prop :=
  ∀ m ∈ st.sentOn, ∃ m', (m' ∈ st.sentOff ∨ m' ∈ st.offQ) ∧ offMatch m m'

theorem stream_inv_step (pairs : List (MidiMsg × MidiMsg)) (clk : List ℚ)
    (offQold sentOnOld sentOffOld : List MidiMsg)
    (hpair : ∀ pr ∈ pairs, offMatch pr.1 pr.2)
    (hinv : ∀ m ∈ sentOnOld, ∃ m',
      (m' ∈ sentOffOld ∨ m' ∈ offQold) ∧ offMatch m m') :
    ∀ m ∈ sentOnOld ++ (streamLoop clk (pairs.map Prod.fst)
        (sortByKey MidiMsg.time (offQold ++ pairs.map Prod.snd))).sentOn,
      ∃ m', (m' ∈ sentOffOld ++ (streamLoop clk (pairs.map Prod.fst)
            (sortByKey MidiMsg.time (offQold ++ pairs.map Prod.snd))).sentOff
          ∨ m' ∈ (streamLoop clk (pairs.map Prod.fst)
            (sortByKey MidiMsg.time (offQold ++ pairs.map Prod.snd))).offRem)
        ∧ offMatch m m' := by
  obtain ⟨hOn, hOff⟩ := streamLoop_conserve clk (pairs.map Prod.fst)
    (sortByKey MidiMsg.time (offQold ++ pairs.map Prod.snd))
  intro m hm
  rcases List.mem_append.1 hm with hm | hm
  · obtain ⟨m', hm', hmm⟩ := hinv m hm
    rcases hm' with h | h
    · exact ⟨m', Or.inl (List.mem_append_left _ h), hmm⟩
    · have hQ : m' ∈ sortByKey MidiMsg.time (offQold ++ pairs.map Prod.snd) :=
        (mem_sortByKey _ _ _).2 (List.mem_append_left _ h)
      rw [← hOff] at hQ
      rcases List.mem_append.1 hQ with h2 | h2
      · exact ⟨m', Or.inl (List.mem_append_right _ h2), hmm⟩
      · exact ⟨m', Or.inr h2, hmm⟩
  · have hOnQ : m ∈ pairs.map Prod.fst :=
      hOn ▸ List.mem_append_left _ hm
    obtain ⟨pr, hpr, rfl⟩ := List.mem_map.1 hOnQ
    have hQ : pr.2 ∈ sortByKey MidiMsg.time (offQold ++ pairs.map Prod.snd) :=
      (mem_sortByKey _ _ _).2
        (List.mem_append_right _ (List.mem_map_of_mem Prod.snd hpr))
    rw [← hOff] at hQ
    rcases List.mem_append.1 hQ with h2 | h2
    · exact ⟨pr.2, Or.inl (List.mem_append_right _ h2), hpair pr hpr⟩
    · exact ⟨pr.2, Or.inr h2, hpair pr hpr⟩

theorem posStep_inv (exp2 : ℚ → ℚ) (tempo vel : ℚ) (velMin velMax : ℤ)
    (st : RunState) (p : ScorePos)
    (ht : 0 ≤ tempo) (he : ∀ x, 0 ≤ exp2 x) (hd : ∀ d ∈ p.dur, 0 ≤ d)
    (hinv : RunInv st) : RunInv (posStep exp2 tempo vel velMin velMax st p) := by
  have hpair : ∀ pr ∈ posMsgPairs exp2 tempo vel velMin velMax
      (eqOnsetNext exp2 tempo st.prevEq p) p, offMatch pr.1 pr.2 := by
    intro pr hpr
    exact (mkNoteMsgs_spec _ _ _ _
      (sortedPerfDurations_nonneg exp2 tempo _ p ht he hd) pr hpr).2
  exact stream_inv_step _ st.clk st.offQ st.sentOn st.sentOff hpair hinv

theorem bmStreamed_inv (exp2 : ℚ → ℚ) (tempo vel : ℚ) (velMin velMax : ℤ)
    (score : List ScorePos) (clk : List ℚ)
    (ht : 0 ≤ tempo) (he : ∀ x, 0 ≤ exp2 x)
    (hd : ∀ p ∈ score, ∀ d ∈ p.dur, 0 ≤ d) :
    RunInv (bmStreamed exp2 tempo vel velMin velMax score clk) := by
  have hd' : ∀ p ∈ sortByKey ScorePos.key score, ∀ d ∈ p.dur, 0 ≤ d :=
    fun p hp => hd p ((mem_sortByKey _ _ _).1 hp)
  have hinit : RunInv (bmRunInit clk) := by
    intro m hm
    simp [bmRunInit] at hm
  unfold bmStreamed
  suffices H : ∀ (ps : List ScorePos) (st0 : RunState),
      (∀ p ∈ ps, ∀ d ∈ p.dur, 0 ≤ d) → RunInv st0 →
      RunInv (ps.foldl (posStep exp2 tempo vel velMin velMax) st0) from
    H _ _ hd' hinit
  intro ps
  induction ps with
  | nil => intro st0 _ h0; simpa using h0
  | cons p ps ih =>
    intro st0 hdur h0
    rw [List.foldl_cons]
    exact ih _ (fun q hq => hdur q (List.mem_cons_of_mem p hq))
      (posStep_inv exp2 tempo vel velMin velMax st0 p ht he
        (hdur p (List.mem_cons_self p ps)) h0)

theorem bmRun_sentOn (exp2 : ℚ → ℚ) (tempo vel : ℚ) (velMin velMax : ℤ)
    (score : List ScorePos) (clk : List ℚ) :
    (bmRun exp2 tempo vel velMin velMax score clk).sentOn
      = (bmStreamed exp2 tempo vel velMin velMax score clk).sentOn := rfl

theorem bmRun_sentOff (exp2 : ℚ → ℚ) (tempo vel : ℚ) (velMin velMax : ℤ)
    (score : List ScorePos) (clk : List ℚ) :
    (bmRun exp2 tempo vel velMin velMax score clk).sentOff
      = (bmStreamed exp2 tempo vel velMin velMax score clk).sentOff
        ++ (drainLoop (bmStreamed exp2 tempo vel velMin velMax score clk).clk
          (bmStreamed exp2 tempo vel velMin velMax score clk).offQ).sent := rfl

theorem bmRun_offQ (exp2 : ℚ → ℚ) (tempo vel : ℚ) (velMin velMax : ℤ)
    (score : List ScorePos) (clk : List ℚ) :
    (bmRun exp2 tempo vel velMin velMax score clk).offQ
      = (drainLoop (bmStreamed exp2 tempo vel velMin velMax score clk).clk
          (bmStreamed exp2 tempo vel velMin velMax score clk).offQ).rem := rfl

theorem bmRun_ok (exp2 : ℚ → ℚ) (tempo vel : ℚ) (velMin velMax : ℤ)
    (score : List ScorePos) (clk : List ℚ) :
    (bmRun exp2 tempo vel velMin velMax score clk).ok
      = ((bmStreamed exp2 tempo vel velMin velMax score clk).ok
        && (drainLoop (bmStreamed exp2 tempo vel velMin velMax score clk).clk
          (bmStreamed exp2 tempo vel velMin velMax score clk).offQ).ok) := rfl

/-- C3: in a run whose dispatch loops complete, every note-on sent has a
corresponding note-off sent at a later-or-equal scheduled time, and the
note-off queue is empty when the run terminates.  (Durations are
non-negative: `dur ≥ 0`, `tempo ≥ 0`, `2^lart ≥ 0`.) -/
theorem completed_run_note_off_coverage
    (exp2 : ℚ → ℚ) (tempo vel : ℚ) (velMin velMax : ℤ)
    (score : List ScorePos) (clk : List ℚ)
    (ht : 0 ≤ tempo) (he : ∀ x, 0 ≤ exp2 x)
    (hd : ∀ p ∈ score, ∀ d ∈ p.dur, 0 ≤ d)
    (hok : (bmRun exp2 tempo vel velMin velMax score clk).ok = true) :
    (∀ m ∈ (bmRun exp2 tempo vel velMin velMax score clk).sentOn,
        ∃ m' ∈ (bmRun exp2 tempo vel velMin velMax score clk).sentOff,
          offMatch m m')
    ∧ (bmRun exp2 tempo vel velMin velMax score clk).offQ = [] := by
  have hinv := bmStreamed_inv exp2 tempo vel velMin velMax score clk ht he hd
  obtain ⟨hcons, hcomplete⟩ :=
    drainLoop_conserve (bmStreamed exp2 tempo vel velMin velMax score clk).clk
      (bmStreamed exp2 tempo vel velMin velMax score clk).offQ
  rw [bmRun_ok, Bool.and_eq_true] at hok
  have hdok := hok.2
  have hrem := hcomplete hdok
  have hsent : (drainLoop
        (bmStreamed exp2 tempo vel velMin velMax score clk).clk
        (bmStreamed exp2 tempo vel velMin velMax score clk).offQ).sent
      = (bmStreamed exp2 tempo vel velMin velMax score clk).offQ := by
    rw [hrem, List.append_nil] at hcons
    exact hcons
  constructor
  · intro m hm
    rw [bmRun_sentOn] at hm
    obtain ⟨m', hm', hmm⟩ := hinv m hm
    rw [bmRun_sentOff]
    rcases hm' with h | h
    · exact ⟨m', List.mem_append_left _ h, hmm⟩
    · refine ⟨m', List.mem_append_right _ ?_, hmm⟩
      rw [hsent]
      exact h
  · rw [bmRun_offQ]
    exact hrem

/-- Witness for C3: a one-note score streamed against an ample clock trace
completes; the note-on sent is covered by a matching note-off and the
note-off queue ends empty. -/
theorem completed_run_note_off_coverage_witness :
    (∀ m ∈ (bmRun (fun _ => (1 : ℚ)) 1 64 30 110
        [⟨0, [60], 1, [1], [1], [0], 0, [0], [0], []⟩] [10, 10, 10, 10]).sentOn,
        ∃ m' ∈ (bmRun (fun _ => (1 : ℚ)) 1 64 30 110
          [⟨0, [60], 1, [1], [1], [0], 0, [0], [0], []⟩] [10, 10, 10, 10]).sentOff,
          offMatch m m')
    ∧ (bmRun (fun _ => (1 : ℚ)) 1 64 30 110
        [⟨0, [60], 1, [1], [1], [0], 0, [0], [0], []⟩] [10, 10, 10, 10]).offQ
        = [] :=
  completed_run_note_off_coverage (fun _ => (1 : ℚ)) 1 64 30 110
    [⟨0, [60], 1, [1], [1], [0], 0, [0], [0], []⟩] [10, 10, 10, 10]
    (by norm_num) (fun _ => by norm_num)
    (by intro p hp d hd
        simp only [List.mem_singleton] at hp
        subst hp
        simp only [List.mem_singleton] at hd
        subst hd
        norm_num)
    (by norm_num [bmRun, bmStreamed, bmRunInit, posStep, posMsgPairs,
      mkNoteMsgs, sortedPitches, sortedPerfOnsets, sortedPerfDurations,
      sortedPerfVels, perfOnsetIdx, perfOnsets, perfDurations, perfVels,
      perfVelocity, npRound, npClip, argsort, sortByKey, insertByKey,
      permuteD, eqOnsetNext, bmEqOnsetInit, streamLoop, drainLoop,
      List.range_succ])

/-- Modelled from the spec: `standalone.py` calls `stop_playing()` on the
playback thread, but the `BMThread` class it imports (and so the stop
mechanism inside the playback loop) is not part of the sources here.
Following the spec, the stop request is a persistent flag checked once per
dispatch iteration; once it is observed, no further note-on is sent and the
loop only keeps draining the note-off queue until it is empty.  The clock
trace carries, with each reading, the stop flag the iteration observes. -/
def stopStream : List (ℚ × Bool) → List MidiMsg → List MidiMsg → LoopOut
  | clk, [], offQ => ⟨[], [], [], offQ, clk.map Prod.fst, true⟩
  | [], onM :: onR, offQ => ⟨[], [], onM :: onR, offQ, [], false⟩
  | (_, true) :: clk, onM :: onR, offQ =>
    ⟨[], (drainLoop (clk.map Prod.fst) offQ).sent, onM :: onR,
      (drainLoop (clk.map Prod.fst) offQ).rem,
      (drainLoop (clk.map Prod.fst) offQ).clockRem,
      (drainLoop (clk.map Prod.fst) offQ).ok⟩
  | (t1, false) :: clk, onM :: onR, [] =>
    let r := stopStream clk (if onM.time ≤ t1 then onR else onM :: onR) []
    ⟨(if onM.time ≤ t1 then [onM] else []) ++ r.sentOn, r.sentOff, r.onRem,
      r.offRem, r.clockRem, r.ok⟩
  | [(t1, false)], onM :: onR, om :: offR =>
    ⟨if onM.time ≤ t1 then [onM] else [], [],
      if onM.time ≤ t1 then onR else onM :: onR, om :: offR, [], false⟩
  | (t1, false) :: (t2, b2) :: clk, onM :: onR, om :: offR =>
    let r := stopStream clk (if onM.time ≤ t1 then onR else onM :: onR)
      (if om.time ≤ t2 then offR else om :: offR)
    ⟨(if onM.time ≤ t1 then [onM] else []) ++ r.sentOn,
      (if om.time ≤ t2 then [om] else []) ++ r.sentOff, r.onRem, r.offRem,
      r.clockRem, r.ok⟩

theorem stopStream_conserve :
    ∀ (clk : List (ℚ × Bool)) (onQ offQ : List MidiMsg),
      (stopStream clk onQ offQ).sentOn ++ (stopStream clk onQ offQ).onRem = onQ
      ∧ (stopStream clk onQ offQ).sentOff ++ (stopStream clk onQ offQ).offRem
          = offQ := by
  intro clk onQ offQ
  induction clk, onQ, offQ using stopStream.induct with
  | case1 clk offQ => simp [stopStream]
  | case2 onM onR offQ => simp [stopStream]
  | case3 t1 clk onM onR offQ =>
    rw [stopStream]
    exact ⟨rfl, (drainLoop_conserve (clk.map Prod.fst) offQ).1⟩
  | case4 t1 clk onM onR ih =>
    rw [stopStream]
    by_cases h : onM.time ≤ t1
    · simp only [if_pos h] at ih ⊢
      simp_all
    · simp only [if_neg h] at ih ⊢
      simp_all
  | case5 t1 onM onR om offR =>
    rw [stopStream]
    by_cases h : onM.time ≤ t1
    · simp only [if_pos h]
      simp
    · simp only [if_neg h]
      simp
  | case6 t1 t2 b2 clk onM onR om offR ih =>
    rw [stopStream]
    by_cases h1 : onM.time ≤ t1 <;> by_cases h2 : om.time ≤ t2
    · simp only [if_pos h1, if_pos h2] at ih ⊢
      simp_all
    · simp only [if_pos h1, if_neg h2] at ih ⊢
      simp_all
    · simp only [if_neg h1, if_pos h2] at ih ⊢
      simp_all
    · simp only [if_neg h1, if_neg h2] at ih ⊢
      simp_all

theorem stopStream_stopped_sentOn_nil (clk : List (ℚ × Bool))
    (onQ offQ : List MidiMsg) (hclk : ∀ c ∈ clk, c.2 = true) :
    (stopStream clk onQ offQ).sentOn = [] := by
  cases onQ with
  | nil => simp [stopStream]
  | cons onM onR =>
    cases clk with
    | nil => simp [stopStream]
    | cons c clk =>
      obtain ⟨t1, b1⟩ := c
      have hb : b1 = true := hclk (t1, b1) (List.mem_cons_self _ _)
      subst hb
      simp [stopStream]

theorem stopStream_flush :
    ∀ (clk : List (ℚ × Bool)) (onQ offQ : List MidiMsg),
      (stopStream clk onQ offQ).ok = true →
      (stopStream clk onQ offQ).onRem = []
      ∨ (stopStream clk onQ offQ).offRem = [] := by
  intro clk onQ offQ
  induction clk, onQ, offQ using stopStream.induct with
  | case1 clk offQ => intro _; left; simp [stopStream]
  | case2 onM onR offQ => intro h; simp [stopStream] at h
  | case3 t1 clk onM onR offQ =>
    rw [stopStream]
    intro h
    exact Or.inr ((drainLoop_conserve (clk.map Prod.fst) offQ).2 h)
  | case4 t1 clk onM onR ih =>
    rw [stopStream]
    intro h
    exact ih h
  | case5 t1 onM onR om offR =>
    rw [stopStream]
    intro h
    simp at h
  | case6 t1 t2 b2 clk onM onR om offR ih =>
    rw [stopStream]
    intro h
    exact ih h

theorem stopStream_append_sentOn (rest : List (ℚ × Bool))
    (hrest : ∀ c ∈ rest, c.2 = true) :
    ∀ (pre : List (ℚ × Bool)) (onQ offQ : List MidiMsg),
      (∀ c ∈ pre, c.2 = false) →
      (stopStream (pre ++ rest) onQ offQ).sentOn
        = (stopStream pre onQ offQ).sentOn := by
  intro pre onQ offQ
  induction pre, onQ, offQ using stopStream.induct with
  | case1 clk offQ =>
    intro _
    simp [stopStream]
  | case2 onM onR offQ =>
    intro _
    rw [List.nil_append]
    rw [stopStream_stopped_sentOn_nil rest _ _ hrest]
    simp [stopStream]
  | case3 t1 clk onM onR offQ =>
    intro hpre
    have := hpre (t1, true) (List.mem_cons_self _ _)
    simp at this
  | case4 t1 clk onM onR ih =>
    intro hpre
    rw [List.cons_append, stopStream, stopStream]
    have := ih (fun c hc => hpre c (List.mem_cons_of_mem _ hc))
    simp only [this]
  | case5 t1 onM onR om offR =>
    intro hpre
    cases rest with
    | nil => rfl
    | cons c rest' =>
      obtain ⟨t2, b2⟩ := c
      rw [List.singleton_append, stopStream, stopStream]
      have hnil : (stopStream rest'
          (if onM.time ≤ t1 then onR else onM :: onR)
          (if om.time ≤ t2 then offR else om :: offR)).sentOn = [] :=
        stopStream_stopped_sentOn_nil rest' _ _
          (fun c hc => hrest c (List.mem_cons_of_mem _ hc))
      simp only [hnil, List.append_nil]
  | case6 t1 t2 b2 clk onM onR om offR ih =>
    intro hpre
    rw [List.cons_append, List.cons_append, stopStream, stopStream]
    have := ih (fun c hc =>
      hpre c (List.mem_cons_of_mem _ (List.mem_cons_of_mem _ hc)))
    simp only [this]

/-- C4 (spec-modelled): a stop request observed while note-ons are still
pending halts note-on output — the completed run sends exactly the note-ons
already sent before the stop — while the note-offs already queued are all
still flushed before the terminal state (empty note-off queue, every queued
note-off sent). -/
theorem stop_request_halts_note_ons (pre post : List (ℚ × Bool)) (t : ℚ)
    (onQ offQ : List MidiMsg)
    (hpre : ∀ c ∈ pre, c.2 = false) (hpost : ∀ c ∈ post, c.2 = true)
    (hmid : (stopStream pre onQ offQ).onRem ≠ []) :
    (stopStream (pre ++ (t, true) :: post) onQ offQ).sentOn
      = (stopStream pre onQ offQ).sentOn
    ∧ ((stopStream (pre ++ (t, true) :: post) onQ offQ).ok = true →
        (stopStream (pre ++ (t, true) :: post) onQ offQ).offRem = []
        ∧ (stopStream (pre ++ (t, true) :: post) onQ offQ).sentOff = offQ) := by
  have hrest : ∀ c ∈ (t, true) :: post, c.2 = true := by
    intro c hc
    rcases List.mem_cons.1 hc with rfl | hc
    · rfl
    · exact hpost c hc
  have hsentOn := stopStream_append_sentOn ((t, true) :: post) hrest
    pre onQ offQ hpre
  refine ⟨hsentOn, ?_⟩
  intro hok
  obtain ⟨hofull, _⟩ := stopStream_conserve (pre ++ (t, true) :: post) onQ offQ
  obtain ⟨hopre, _⟩ := stopStream_conserve pre onQ offQ
  have honRem : (stopStream (pre ++ (t, true) :: post) onQ offQ).onRem
      = (stopStream pre onQ offQ).onRem := by
    rw [hsentOn] at hofull
    exact List.append_cancel_left (hofull.trans hopre.symm)
  have hflush := stopStream_flush (pre ++ (t, true) :: post) onQ offQ hok
  have hoffRem : (stopStream (pre ++ (t, true) :: post) onQ offQ).offRem = [] := by
    rcases hflush with h | h
    · rw [honRem] at h
      exact absurd h hmid
    · exact h
  refine ⟨hoffRem, ?_⟩
  obtain ⟨_, hcons⟩ := stopStream_conserve (pre ++ (t, true) :: post) onQ offQ
  rw [hoffRem, List.append_nil] at hcons
  exact hcons

/-- Note-on queue of the concrete stop scenario: two notes about to sound
and one scheduled far in the future. -/
def stopDemoOnQ : List MidiMsg :=
  [⟨true, 60, 64, 1⟩, ⟨true, 62, 64, 2⟩, ⟨true, 64, 64, 100⟩]

/-- Note-off queue of the concrete stop scenario. -/
def stopDemoOffQ : List MidiMsg :=
  [⟨false, 60, 64, 11⟩, ⟨false, 62, 64, 12⟩, ⟨false, 64, 64, 120⟩]

/-- Clock readings before the stop request: two note-ons get sent, none of
the note-offs are due yet. -/
def stopDemoPre : List (ℚ × Bool) :=
  [(1, false), (1, false), (2, false), (2, false), (3, false), (3, false)]

/-- Clock readings after the stop request, enough to drain all note-offs. -/
def stopDemoPost : List (ℚ × Bool) := [(20, true), (20, true), (200, true)]

/-- Witness for C4, Scenario E: with two note-ons already sent and their
note-offs still pending, a stop request stops note-on output (the third
note-on is never sent) while every queued note-off is still flushed and the
note-off queue ends empty. -/
theorem stop_request_halts_note_ons_witness :
    (stopStream (stopDemoPre ++ (4, true) :: stopDemoPost)
      stopDemoOnQ stopDemoOffQ).ok = true
    ∧ (stopStream (stopDemoPre ++ (4, true) :: stopDemoPost)
        stopDemoOnQ stopDemoOffQ).sentOn
        = (stopStream stopDemoPre stopDemoOnQ stopDemoOffQ).sentOn
    ∧ ((stopStream (stopDemoPre ++ (4, true) :: stopDemoPost)
        stopDemoOnQ stopDemoOffQ).ok = true →
        (stopStream (stopDemoPre ++ (4, true) :: stopDemoPost)
          stopDemoOnQ stopDemoOffQ).offRem = []
        ∧ (stopStream (stopDemoPre ++ (4, true) :: stopDemoPost)
          stopDemoOnQ stopDemoOffQ).sentOff = stopDemoOffQ) := by
  have h := stop_request_halts_note_ons stopDemoPre stopDemoPost 4
    stopDemoOnQ stopDemoOffQ
    (by intro c hc
        simp only [stopDemoPre, List.mem_cons] at hc
        rcases hc with h | h | h | h | h | h | h <;>
          first | (subst h; rfl) | simp at h)
    (by intro c hc
        simp only [stopDemoPost, List.mem_cons] at hc
        rcases hc with h | h | h | h <;>
          first | (subst h; rfl) | simp at h)
    (by norm_num [stopDemoPre, stopDemoOnQ, stopDemoOffQ, stopStream,
        drainLoop])
  refine ⟨?_, h.1, h.2⟩
  norm_num [stopDemoPre, stopDemoPost, stopDemoOnQ, stopDemoOffQ, stopStream,
    drainLoop]

end ConEspressione
